import Mathlib

/-!
Verification development for the cargo-mcp repository.

The development shallowly embeds the two subsystems the claims concern:

* the Documentation Index Builder and Fuzzy Search Engine of
  `cargo-mcp/src/providers/rustdoc.rs` (item graph construction from a
  parsed rustdoc document, child resolution, and `Crate::search`);
* the generic TTL/LRU cache of `src/cache.rs` and the registry client of
  `src/providers/crates_io.rs`, plus the provider-level document cache of
  `RustdocProvider`.

Modelling conventions:

* Rust `String` / `Arc<str>` values are `List Char` (named `Str`), so that
  all string operations kernel-reduce;
* Rust `HashMap` values are association lists with a fixed iteration
  order; `alInsert` mirrors `HashMap::insert` (overwrite), `alRemove`
  mirrors `HashMap::remove`;
* `f64` similarity scores are exact rationals; the similarity metric
  itself (the external `strsim` crate) is a parameter `sim` of the search
  function, constrained only where a claim needs it (normalised to `[0,1]`
  with `1` exactly on equal strings, as Jaro-Winkler is);
* `SystemTime` instants are natural numbers passed explicitly at each
  operation (`SystemTime::now()` becomes a `now` argument);
* fallible Rust paths return `Option`/`Except`; a `panic`/`unwrap` on a
  missing value becomes `none`.
-/

abbrev Str := List Char

def str (s : String) : Str := s.toList

/-- Association-list lookup, mirroring `HashMap::get`. -/
def alLookup {κ α : Type} [DecidableEq κ] (l : List (κ × α)) (k : κ) : Option α :=
  (l.find? (fun p => decide (p.1 = k))).map Prod.snd

/-- Association-list insert, mirroring `HashMap::insert`: overwrites the
entry for the key when present, otherwise appends a new entry. -/
def alInsert {κ α : Type} [DecidableEq κ] (l : List (κ × α)) (k : κ) (v : α) :
    List (κ × α) :=
  if l.any (fun p => decide (p.1 = k)) then
    l.map (fun p => if p.1 = k then (k, v) else p)
  else
    l ++ [(k, v)]

/-- Association-list removal, mirroring `HashMap::remove`. -/
def alRemove {κ α : Type} [DecidableEq κ] (l : List (κ × α)) (k : κ) :
    List (κ × α) :=
  l.filter (fun p => decide (p.1 ≠ k))

/-- One step of Rust `str::trim_start_matches`: the fuel argument bounds the
number of removals (the pattern, when nonempty, consumes at least one
character per removal, so `s.length` fuel is always enough). -/
def trimAux : Nat → Str → Str → Str
  | 0, s, _ => s
  | n + 1, s, pat =>
    if pat ≠ [] ∧ pat.isPrefixOf s then trimAux n (s.drop pat.length) pat else s

/-- Rust `str::trim_start_matches`: repeatedly removes the pattern from the
front of the string. -/
def trimStartMatches (s pat : Str) : Str := trimAux s.length s pat

/-! ## Rustdoc data model (rustdoc_types + processed items)

From `cargo-mcp/src/providers/rustdoc.rs`.  `Id` is `rustdoc_types::Id`.
`ItemInner` models the `rustdoc_types::ItemEnum` payloads the source
matches on; `constantInner` stands for any implementation-member kind
other than `Function` (e.g. an associated constant), which the source
handles through its catch-all `other` arm. -/

abbrev Id' := Nat

inductive ItemKind
  | module
  | struct'
  | enum'
  | trait'
  | function
  | variant
  | constant
  | other
deriving DecidableEq, Repr

inductive ItemInner
  | structInner (impls : List Id')
  | enumInner (variants : List Id') (impls : List Id')
  | implInner (traitName : Option Str) (items : List Id')
  | functionInner
  | constantInner
  | moduleInner
  | otherInner
deriving DecidableEq, Repr

/-- `rustdoc_types::Item`: the full item record stored in the document's
`index` map. -/
structure RawItem where
  crateId : Nat
  name : Option Str
  docs : Option Str
  inner : ItemInner
deriving DecidableEq, Repr

/-- `rustdoc_types::ItemSummary`: an entry of the document's `paths` map. -/
structure ItemSummary where
  path : List Str
  kind : ItemKind
deriving DecidableEq, Repr

/-- `rustdoc_types::Crate`: the parsed interface-description document. -/
structure RawCrate where
  root : Id'
  index : List (Id' × RawItem)
  paths : List (Id' × ItemSummary)
  externalCrates : List (Nat × Str)
deriving DecidableEq, Repr

/-- The processed `Item` of `cargo-mcp/src/providers/rustdoc.rs`. -/
structure Item where
  id : Id'
  name : Str
  path : Str
  search : Str
  kind : ItemKind
  docs : Option Str
  functions : List Str
  variants : List Str
  traits : List Str
  trait_impls : List Str
  structs : List Str
  enums : List Str
deriving DecidableEq, Repr

/-- `Item::new`. -/
def Item.new (id : Id') (name path search : Str) (kind : ItemKind)
    (docs : Option Str) : Item :=
  ⟨id, name, path, search, kind, docs, [], [], [], [], [], []⟩

/-- Joins path components with the double-colon separator, mirroring
`summary.path.join("::")`. -/
def joinSep : List Str → Str
  | [] => []
  | [x] => x
  | x :: y :: xs => x ++ str ("::") ++ joinSep (y :: xs)

/-- `Item::from_summary`: `path` is the joined components, `search` is the
path with the crate-name prefix and a following separator trimmed, `name`
is the last path component (the source unwraps; an empty component list
degrades to the empty name). -/
def Item.fromSummary (id : Id') (summary : ItemSummary) (info : RawItem)
    (crateName : Str) : Item :=
  let path := joinSep summary.path
  let search := trimStartMatches (trimStartMatches path crateName) (str ("::"))
  let name := summary.path.getLast?.getD []
  Item.new id name path search summary.kind info.docs

/-- `Item::child_path`: extends `path` (and `search`, unless empty) by the
member name. -/
def Item.childPath (it : Item) (name : Str) : Str × Str :=
  let path := it.path ++ str ("::") ++ name
  let search := if it.search = [] then name else it.search ++ str ("::") ++ name
  (path, search)

/-- Lexicographic comparison on `Str`, mirroring the `Ord` instance used by
`Vec::sort` on `Arc<str>` values. -/
def strLe : Str → Str → Bool
  | [], _ => true
  | _ :: _, [] => false
  | a :: as, b :: bs => if a < b then true else if b < a then false else strLe as bs

def strInsertSorted (x : Str) : List Str → List Str
  | [] => [x]
  | y :: ys => if strLe x y then x :: y :: ys else y :: strInsertSorted x ys

/-- Stable ascending sort, mirroring `Vec::sort`. -/
def strSort : List Str → List Str
  | [] => []
  | x :: xs => strInsertSorted x (strSort xs)

/-- `Vec::dedup`: removes consecutive duplicates. -/
def dedupAdj : List Str → List Str
  | [] => []
  | [x] => [x]
  | x :: y :: xs => if x = y then dedupAdj (y :: xs) else x :: dedupAdj (y :: xs)

/-- `Item::sort`: sorts and dedups every child-name list. -/
def Item.sort (it : Item) : Item :=
  { it with
    functions := dedupAdj (strSort it.functions)
    variants := dedupAdj (strSort it.variants)
    traits := dedupAdj (strSort it.traits)
    trait_impls := dedupAdj (strSort it.trait_impls)
    structs := dedupAdj (strSort it.structs)
    enums := dedupAdj (strSort it.enums) }

/-- `Item::push_trait_impl`: records the trait path's name (generic
arguments are inspected but unused in the source). -/
def Item.pushTraitImpl (it : Item) (name : Str) : Item :=
  { it with trait_impls := it.trait_impls ++ [name] }

/-- One iteration of the member loop shared by the struct and enum arms of
`Item::resolve_children`: a member that is missing from the index or
unnamed is skipped; otherwise the name is pushed onto `functions` first,
and only then is the member's kind matched — a child item is synthesized
only for `Function` members (any other kind is reported with `eprint!`
and skipped). -/
def memberStep (krate : RawCrate) (st : Item × List (Id' × Item))
    (itemId : Id') : Item × List (Id' × Item) :=
  match alLookup krate.index itemId with
  | none => st
  | some info =>
    match info.name with
    | none => st
    | some itemName =>
      let it := { st.1 with functions := st.1.functions ++ [itemName] }
      let ps := it.childPath itemName
      match info.inner with
      | ItemInner.functionInner =>
        let fnItem := Item.new itemId itemName ps.1 ps.2 ItemKind.function info.docs
        (it, alInsert st.2 itemId fnItem)
      | _ => (it, st.2)

/-- The member loop of an inherent impl block. -/
def processImplMembers (st : Item × List (Id' × Item)) (memberIds : List Id')
    (krate : RawCrate) : Item × List (Id' × Item) :=
  match memberIds with
  | [] => st
  | m :: rest => processImplMembers (memberStep krate st m) rest krate

/-- One iteration of the impl-block loop of `Item::resolve_children`: a
trait-bearing impl contributes its trait name to `trait_impls`; an
inherent impl has its members processed; a non-impl record falls through
the `if let`. -/
def implStep (krate : RawCrate) (st : Item × List (Id' × Item))
    (implId : Id') : Item × List (Id' × Item) :=
  match alLookup krate.index implId with
  | none => st
  | some implInfo =>
    match implInfo.inner with
    | ItemInner.implInner traitName items =>
      match traitName with
      | some t => (st.1.pushTraitImpl t, st.2)
      | none => processImplMembers st items krate
    | _ => st

/-- The impl-block loop of `Item::resolve_children`. -/
def processImpls (st : Item × List (Id' × Item)) (impls : List Id')
    (krate : RawCrate) : Item × List (Id' × Item) :=
  match impls with
  | [] => st
  | i :: rest => processImpls (implStep krate st i) rest krate

/-- One iteration of the enum-variant loop of `Item::resolve_children`:
each named variant is appended to `variants` and synthesized as a
`Variant` child item. -/
def variantStep (krate : RawCrate) (st : Item × List (Id' × Item))
    (vid : Id') : Item × List (Id' × Item) :=
  match alLookup krate.index vid with
  | none => st
  | some vinfo =>
    match vinfo.name with
    | none => st
    | some vname =>
      let it := { st.1 with variants := st.1.variants ++ [vname] }
      let ps := it.childPath vname
      let vItem := Item.new vid vname ps.1 ps.2 ItemKind.variant vinfo.docs
      (it, alInsert st.2 vid vItem)

/-- The enum-variant loop of `Item::resolve_children`. -/
def processVariants (st : Item × List (Id' × Item)) (variantIds : List Id')
    (krate : RawCrate) : Item × List (Id' × Item) :=
  match variantIds with
  | [] => st
  | v :: rest => processVariants (variantStep krate st v) rest krate

/-- `Item::resolve_children`: dispatches on the raw item's payload. -/
def Item.resolveChildren (it : Item) (info : RawItem) (krate : RawCrate)
    (additional : List (Id' × Item)) : Item × List (Id' × Item) :=
  match info.inner with
  | ItemInner.structInner impls => processImpls (it, additional) impls krate
  | ItemInner.enumInner variantIds impls =>
    processImpls (processVariants (it, additional) variantIds krate) impls krate
  | _ => (it, additional)

/-- The processed `Crate` (the ItemGraph): `items` and `paths` are hash
maps in the source, modelled as association lists with a fixed iteration
order. -/
structure Crate where
  root_id : Id'
  name : Str
  items : List (Id' × Item)
  paths : List (Str × List Id')
deriving DecidableEq, Repr

/-- `HashMap::extend`: inserts every pair, overwriting on key collision. -/
def extendA (l adds : List (Id' × Item)) : List (Id' × Item) :=
  adds.foldl (fun acc p => alInsert acc p.1 p.2) l

/-- `Crate::from_crate`.  The source's `.unwrap()` panics (target crate not
found, root item missing or unnamed, or a processed id absent from the
index) become `none`.  Note that the `paths` map is created empty and
never written afterwards. -/
def Crate.fromCrate (krate : RawCrate) (crateName : Option Str) : Option Crate :=
  let idName? : Option (Nat × Str) :=
    match crateName with
    | some nm => (krate.externalCrates.find? (fun p => decide (p.2 = nm))).map
        (fun p => (p.1, nm))
    | none =>
      match alLookup krate.index krate.root with
      | some info => info.name.map (fun nm => (info.crateId, nm))
      | none => none
  match idName? with
  | none => none
  | some cn =>
    let items1 : List (Id' × Item) := krate.paths.foldl
      (fun acc p =>
        match alLookup krate.index p.1 with
        | none => acc
        | some info =>
          if info.crateId = cn.1 then
            alInsert acc p.1 (Item.fromSummary p.1 p.2 info cn.2)
          else acc)
      []
    let second : Option (List (Id' × Item) × List (Id' × Item)) := items1.foldl
      (fun acc p =>
        match acc with
        | none => none
        | some st =>
          match alLookup krate.index p.1 with
          | none => none
          | some info =>
            let r := Item.resolveChildren p.2 info krate st.2
            some (st.1 ++ [(p.1, r.1.sort)], r.2))
      (some ([], []))
    match second with
    | none => none
    | some st =>
      some ⟨krate.root, cn.2, extendA st.1 st.2, []⟩

/-! ## Fuzzy search engine (`Crate::search`) -/

/-- A similarity metric, standing for `strsim::jaro_winkler`. -/
abbrev Sim := Str → Str → ℚ

/-- `SearchResult` (the item is held by value here rather than by
reference). -/
structure SearchResult where
  score : ℚ
  item : Item
deriving DecidableEq, Repr

/-- The threshold `0.2` of `Crate::search`, as an exact rational. -/
def scoreFloor : ℚ := ⟨1, 5, by decide, Nat.coprime_one_left 5⟩

/-- The score of one item: the similarity of the trimmed query against the
item's search key; when that is below `1.0`, the maximum of it and the
similarity against the bare name. -/
def itemScore (sim : Sim) (it : Item) (query : Str) : ℚ :=
  let score := sim it.search query
  if score < 1 then max score (sim it.name query) else score

/-- One iteration of the search loop: an exact match (score exactly 1) is
appended to the exact list and clears the fuzzy list; once any exact match
exists fuzzy accumulation is skipped; otherwise scores above the floor are
accumulated. -/
def searchStep (sim : Sim) (query : Str)
    (acc : List SearchResult × List SearchResult) (it : Item) :
    List SearchResult × List SearchResult :=
  let score := itemScore sim it query
  let res : SearchResult := ⟨score, it⟩
  if score = 1 then (acc.1 ++ [res], [])
  else if acc.1 ≠ [] then acc
  else if scoreFloor < score then (acc.1, acc.2 ++ [res])
  else acc

/-- Insertion step of the stable descending sort standing for
`sort_by(|a, b| b.score.partial_cmp(&a.score).unwrap())`. -/
def insertScored (r : SearchResult) : List SearchResult → List SearchResult
  | [] => [r]
  | x :: xs => if x.score < r.score then r :: x :: xs else x :: insertScored r xs

/-- Stable sort of fuzzy matches by descending score. -/
def sortScored : List SearchResult → List SearchResult
  | [] => []
  | x :: xs => insertScored x (sortScored xs)

/-- The items of a graph in iteration order. -/
def itemsList (c : Crate) : List Item := c.items.map Prod.snd

/-- The query after stripping the package's own name and a following
separator, exactly as `Crate::search` trims it. -/
def trimmedQuery (c : Crate) (query : Str) : Str :=
  trimStartMatches (trimStartMatches query c.name) (str ("::"))

/-- `Crate::search`. -/
def Crate.search (sim : Sim) (c : Crate) (query : Str)
    (maxResults : Option Nat) : List SearchResult :=
  let mr := maxResults.getD 5
  let q := trimmedQuery c query
  let folded := (itemsList c).foldl (searchStep sim q) ([], [])
  if folded.1 ≠ [] then folded.1
  else (sortScored folded.2).take mr

/-! ## TTL/LRU cache (`src/cache.rs`)

`SystemTime::now()` becomes an explicit `now : Nat` argument of each
operation.  `get` returns the (unchanged) cache alongside the result to
make its frame condition a stated fact rather than a typing accident. -/

structure CacheEntry (α : Type) where
  data : α
  timestamp : Nat
deriving DecidableEq, Repr

structure Cache (α : Type) where
  entries : List (Str × CacheEntry α)
  ttl : Nat
  maxSize : Nat
deriving DecidableEq, Repr

/-- `Cache::is_valid`: `duration_since` fails on a future timestamp, which
`unwrap_or(false)` turns into invalidity; otherwise the age must be
strictly below the TTL. -/
def Cache.isValid {α : Type} (c : Cache α) (e : CacheEntry α) (now : Nat) : Bool :=
  if e.timestamp ≤ now then decide (now - e.timestamp < c.ttl) else false

/-- `Cache::get`: a hit only for a present, valid entry; the store is
returned unchanged. -/
def Cache.get {α : Type} (c : Cache α) (key : Str) (now : Nat) :
    Option α × Cache α :=
  match alLookup c.entries key with
  | some entry => (if c.isValid entry now then some entry.data else none, c)
  | none => (none, c)

/-- `min_by_key(|(_, entry)| entry.timestamp)`: the first entry with the
minimal timestamp (Rust's `min_by_key` keeps the earlier element on
ties). -/
def oldestEntry {α : Type} (l : List (Str × CacheEntry α)) :
    Option (Str × CacheEntry α) :=
  match l with
  | [] => none
  | x :: xs =>
    some (xs.foldl (fun best y => if y.2.timestamp < best.2.timestamp then y else best) x)

/-- `Cache::insert`: when the store already holds at least `maxSize`
entries, the single oldest entry is removed first; then the new entry is
inserted (overwriting any existing entry for the key). -/
def Cache.insert {α : Type} (c : Cache α) (key : Str) (value : α) (now : Nat) :
    Cache α :=
  let entries :=
    if c.maxSize ≤ c.entries.length then
      match oldestEntry c.entries with
      | some p => alRemove c.entries p.1
      | none => c.entries
    else c.entries
  { c with entries := alInsert entries key ⟨value, now⟩ }

/-- `Cache::cleanup`: retains exactly the valid entries. -/
def Cache.cleanup {α : Type} (c : Cache α) (now : Nat) : Cache α :=
  { c with entries := c.entries.filter (fun p => c.isValid p.2 now) }

/-- An externally observable cache operation, with its `SystemTime::now()`
instant. -/
inductive CacheOp (α : Type)
  | insertOp (key : Str) (value : α) (now : Nat)
  | getOp (key : Str) (now : Nat)
  | cleanupOp (now : Nat)

def applyOp {α : Type} (c : Cache α) : CacheOp α → Cache α
  | CacheOp.insertOp k v t => c.insert k v t
  | CacheOp.getOp k t => (c.get k t).2
  | CacheOp.cleanupOp t => c.cleanup t

def applyOps {α : Type} (c : Cache α) (ops : List (CacheOp α)) : Cache α :=
  ops.foldl applyOp c

/-- Iterated insertion of keyed values with explicit timestamps. -/
def insertSeq {α : Type} (c : Cache α) (l : List (Str × α × Nat)) : Cache α :=
  l.foldl (fun c p => c.insert p.1 p.2.1 p.2.2) c

/-! ## Registry client (`src/providers/crates_io.rs`)

`crates_index::Version` is modelled with an explicit semantic-version
triple alongside the version string (`fetch_features` compares the
requested version by string equality).  `highest_normal_version` is a
function of the external `crates_index` crate; it is modelled here per its
documented behavior, which the spec restates: the highest version that is
neither yanked nor a pre-release. -/

structure VersionInfo where
  vers : Str
  major : Nat
  minor : Nat
  patch : Nat
  pre : Bool
  yanked : Bool
  features : List (Str × List Str)
deriving DecidableEq, Repr

structure RegCrate where
  versions : List VersionInfo
deriving DecidableEq, Repr

/-- Strict semantic-version order on the numeric triples. -/
def semverLt (a b : VersionInfo) : Prop :=
  a.major < b.major ∨
    (a.major = b.major ∧
      (a.minor < b.minor ∨ (a.minor = b.minor ∧ a.patch < b.patch)))

instance (a b : VersionInfo) : Decidable (semverLt a b) := by
  unfold semverLt; infer_instance

def semverLe (a b : VersionInfo) : Prop := ¬ semverLt b a

/-- One step of the highest-version selection: keep the semver-larger of
the running best and the next candidate (the first is kept on ties). -/
def hnvPick (best : Option VersionInfo) (v : VersionInfo) : Option VersionInfo :=
  match best with
  | none => some v
  | some b => if semverLt b v then some v else some b

/-- Modelled from the external `crates_index` crate, whose behavior the
spec restates: the highest version among those neither yanked nor
pre-release, `none` when no version qualifies. -/
def highestNormalVersion (k : RegCrate) : Option VersionInfo :=
  (k.versions.filter (fun v => !v.pre && !v.yanked)).foldl hnvPick none

/-- The distinct error kinds the registry client surfaces (the source
carries them as message strings: a version-mismatch message and a
no-versions message). -/
inductive RegError
  | versionNotFound (v : Str)
  | noVersions
deriving DecidableEq, Repr

/-- `CratesIoProvider::fetch_latest_version`, applied to the fetched
registry entry. -/
def fetchLatestVersion (k : RegCrate) : Except RegError Str :=
  match highestNormalVersion k with
  | some v => Except.ok v.vers
  | none => Except.error RegError.noVersions

/-- `CratesIoProvider::fetch_features`, applied to the fetched registry
entry: an explicitly requested version is selected by string equality and
its absence is an error; otherwise the latest normal version is used. -/
def fetchFeatures (k : RegCrate) (version : Option Str) :
    Except RegError (List Str) :=
  match version with
  | some vq =>
    match k.versions.find? (fun v => decide (v.vers = vq)) with
    | some vi => Except.ok (vi.features.map Prod.fst)
    | none => Except.error (RegError.versionNotFound vq)
  | none =>
    match highestNormalVersion k with
    | some vi => Except.ok (vi.features.map Prod.fst)
    | none => Except.error RegError.noVersions

/-! ## Rustdoc provider (`RustdocProvider`)

The external effects of the acquisition pipeline (temp workspace, `cargo
vendor`, locating the vendored directory, running the rustdoc JSON
builder) are collapsed into an environment of two oracles: `vendor`
resolves a package name and version requirement to a crate directory, and
`genJson` runs documentation generation at a manifest path with the given
`document_private_items` flag.  The provider-level cache is the explicit
state threaded through each call. -/

inductive DocError
  | commandFailed
  | notFound
  | parseFailed
deriving DecidableEq, Repr

structure DocEnv where
  vendor : Str → Str → Except DocError Str
  genJson : Str → Bool → Except DocError RawCrate

/-- `generate_rustdoc_json`'s manifest-path normalization: append
`Cargo.toml` unless the path already ends with it. -/
def manifestPath (p : Str) : Str :=
  if (str ("Cargo.toml")).isSuffixOf p then p else p ++ str ("/Cargo.toml")

/-- `RustdocProvider::generate_rustdoc_json` (the JSON parse and
format-version diagnostics live inside the `genJson` oracle's error). -/
def generateRustdocJson (env : DocEnv) (path : Str) (isWorkspace : Bool) :
    Except DocError RawCrate :=
  env.genJson (manifestPath path) isWorkspace

abbrev ProviderCache := List (Str × Crate)

/-- `RustdocProvider::get_workspace_docs`: always regenerates, with
private items included, and never touches the provider cache. -/
def getWorkspaceDocs (env : DocEnv) (cache : ProviderCache) (path : Str) :
    Except DocError Crate × ProviderCache :=
  match generateRustdocJson env path true with
  | Except.error e => (Except.error e, cache)
  | Except.ok raw =>
    match Crate.fromCrate raw none with
    | some c => (Except.ok c, cache)
    | none => (Except.error DocError.parseFailed, cache)

/-- The provider cache key `name:version`, with an absent version
defaulting to the wildcard requirement. -/
def cacheKey (name : Str) (version : Option Str) : Str :=
  name ++ str (":") ++ version.getD (str ("*"))

/-- `RustdocProvider::get_crate_docs`: cache-first; on a miss the pipeline
vendors the crate, generates documentation with private items excluded,
processes it, and inserts the result under `name:version` before
returning. -/
def getCrateDocs (env : DocEnv) (cache : ProviderCache) (name : Str)
    (version : Option Str) : Except DocError Crate × ProviderCache :=
  let key := cacheKey name version
  match alLookup cache key with
  | some k => (Except.ok k, cache)
  | none =>
    match env.vendor name (version.getD (str ("*"))) with
    | Except.error e => (Except.error e, cache)
    | Except.ok crateDir =>
      match generateRustdocJson env crateDir false with
      | Except.error e => (Except.error e, cache)
      | Except.ok raw =>
        match Crate.fromCrate raw none with
        | none => (Except.error DocError.parseFailed, cache)
        | some c => (Except.ok c, alInsert cache key c)

/-! ## Derived views of the search loop -/

/-- The search result built for one item. -/
def mkResult (sim : Sim) (query : Str) (it : Item) : SearchResult :=
  ⟨itemScore sim it query, it⟩

/-- The exact matches (score exactly 1) of a list of items, in iteration
order. -/
def exactsOf (sim : Sim) (query : Str) (l : List Item) : List SearchResult :=
  (l.filter (fun it => decide (itemScore sim it query = 1))).map (mkResult sim query)

/-- The fuzzy candidates (score above the floor) of a list of items, in
iteration order. -/
def fuzzyOf (sim : Sim) (query : Str) (l : List Item) : List SearchResult :=
  (l.filter (fun it => decide (scoreFloor < itemScore sim it query))).map
    (mkResult sim query)

/-! ## Concrete fixtures used by witnesses and counterexamples -/

/-- A similarity metric for witnesses: 1 on equal strings, 0 otherwise. -/
def simEq : Sim := fun a b => if a = b then 1 else 0

/-- The exact rational one half. -/
def halfQ : ℚ := ⟨1, 2, by decide, Nat.coprime_one_left 2⟩

/-- A similarity metric for witnesses: 1 on equal strings, one half
otherwise. -/
def simNear : Sim := fun a b => if a = b then 1 else halfQ

def itemTestStruct : Item :=
  Item.new 0 (str ("TestStruct")) (str ("test_crate::TestStruct"))
    (str ("TestStruct")) ItemKind.struct' none

def itemOther : Item :=
  Item.new 1 (str ("Other")) (str ("test_crate::Other")) (str ("Other"))
    ItemKind.struct' none

/-- A two-item graph for the search witnesses. -/
def crateW : Crate :=
  ⟨0, str ("test_crate"), [(0, itemTestStruct), (1, itemOther)], []⟩

def queryExact : Str := str ("test_crate::TestStruct")

def queryFuzzy : Str := str ("Foo")

/-- A raw associated constant named FOO: an implementation-member kind the
child-resolution member loop does not recognize. -/
def rawConstFoo : RawItem := ⟨0, some (str ("FOO")), none, ItemInner.constantInner⟩

/-- A raw inherent impl block (no trait target) whose only member is the
associated constant. -/
def rawImplInherent : RawItem := ⟨0, none, none, ItemInner.implInner none [3]⟩

/-- A raw struct with the single inherent impl block attached. -/
def rawStructS : RawItem := ⟨0, some (str ("S")), none, ItemInner.structInner [2]⟩

/-- A raw document containing the struct, its impl block, and the
associated constant member. -/
def krateC3 : RawCrate :=
  ⟨1, [(1, rawStructS), (2, rawImplInherent), (3, rawConstFoo)], [], []⟩

/-- The processed parent item for the struct, before child resolution. -/
def itemS : Item :=
  Item.new 1 (str ("S")) (str ("tc::S")) (str ("S")) ItemKind.struct' none

/-- A raw root module for a one-item document. -/
def rawRootModule : RawItem :=
  ⟨0, some (str ("test_crate")), none, ItemInner.moduleInner⟩

/-- A one-item raw document: just the root module, present in the path
table. -/
def krateC4 : RawCrate :=
  ⟨0, [(0, rawRootModule)], [(0, ⟨[str ("test_crate")], ItemKind.module⟩)], []⟩

/-- The graph built from the one-item document. -/
def builtC4 : Crate := (Crate.fromCrate krateC4 none).getD ⟨0, [], [], []⟩

/-- A one-entry cache for the TTL witness. -/
def cacheW : Cache Nat := ⟨[(str ("k"), ⟨42, 5⟩)], 10, 3⟩

/-- A zero-capacity cache: the degenerate configuration refuting the
unrestricted eviction claim. -/
def cacheZero : Cache Nat := ⟨[], 100, 0⟩

/-- A full two-entry cache with distinct timestamps. -/
def cacheFull : Cache Nat := ⟨[(str ("a"), ⟨1, 0⟩), (str ("b"), ⟨2, 1⟩)], 100, 2⟩

/-- Three distinct keys inserted at strictly increasing timestamps. -/
def seqW : List (Str × Nat × Nat) :=
  [(str ("k1"), 1, 0), (str ("k2"), 2, 1), (str ("k3"), 3, 2)]

/-- An operation sequence for the size-invariant witness. -/
def opsW : List (CacheOp Nat) :=
  [CacheOp.insertOp (str ("a")) 1 0, CacheOp.insertOp (str ("b")) 2 1,
    CacheOp.insertOp (str ("a")) 3 2, CacheOp.insertOp (str ("c")) 4 3,
    CacheOp.getOp (str ("c")) 4, CacheOp.cleanupOp 5]

/-- A normal registry version 1.0.0 with two features. -/
def verNormal : VersionInfo :=
  ⟨str ("1.0.0"), 1, 0, 0, false, false,
    [(str ("default"), []), (str ("extra"), [str ("dep/feat")])]⟩

/-- A yanked registry version 2.0.0. -/
def verYanked : VersionInfo := ⟨str ("2.0.0"), 2, 0, 0, false, true, []⟩

/-- A pre-release registry version 3.0.0-alpha. -/
def verPre : VersionInfo := ⟨str ("3.0.0-alpha"), 3, 0, 0, true, false, []⟩

/-- An old normal registry version 0.9.0. -/
def verOld : VersionInfo := ⟨str ("0.9.0"), 0, 9, 0, false, false, []⟩

/-- A registry entry mixing normal, yanked, and pre-release versions. -/
def regW : RegCrate := ⟨[verOld, verYanked, verNormal, verPre]⟩

/-- A provider environment whose oracles return fixed values. -/
def envW : DocEnv :=
  ⟨fun _ _ => Except.ok (str ("dir")), fun _ _ => Except.ok krateC4⟩

instance {ε α : Type} [DecidableEq ε] [DecidableEq α] :
    DecidableEq (Except ε α) :=
  fun a b =>
    match a, b with
    | Except.ok x, Except.ok y =>
      if h : x = y then isTrue (by rw [h])
      else isFalse (fun hc => h (by cases hc; rfl))
    | Except.error x, Except.error y =>
      if h : x = y then isTrue (by rw [h])
      else isFalse (fun hc => h (by cases hc; rfl))
    | Except.ok _, Except.error _ => isFalse (fun hc => Except.noConfusion hc)
    | Except.error _, Except.ok _ => isFalse (fun hc => Except.noConfusion hc)

/-! # Theorems -/

/-! ## Search: generic lemmas -/

theorem scoreFloor_eq : scoreFloor = 1 / 5 := by
  rw [scoreFloor, Rat.mk'_eq_divInt, Rat.divInt_eq_div]
  norm_num

theorem exactsOf_append (sim : Sim) (query : Str) (l1 l2 : List Item) :
    exactsOf sim query (l1 ++ l2) =
      exactsOf sim query l1 ++ exactsOf sim query l2 := by
  simp [exactsOf, List.filter_append]

theorem fuzzyOf_append (sim : Sim) (query : Str) (l1 l2 : List Item) :
    fuzzyOf sim query (l1 ++ l2) =
      fuzzyOf sim query l1 ++ fuzzyOf sim query l2 := by
  simp [fuzzyOf, List.filter_append]

theorem exactsOf_singleton (sim : Sim) (query : Str) (x : Item) :
    exactsOf sim query [x] =
      if itemScore sim x query = 1 then [mkResult sim query x] else [] := by
  by_cases h : itemScore sim x query = 1 <;> simp [exactsOf, h]

theorem fuzzyOf_singleton (sim : Sim) (query : Str) (x : Item) :
    fuzzyOf sim query [x] =
      if scoreFloor < itemScore sim x query then [mkResult sim query x] else [] := by
  by_cases h : scoreFloor < itemScore sim x query <;> simp [fuzzyOf, h]

/-- Characterization of the search loop's fold: the exact accumulator is
exactly the exact matches in iteration order, and the fuzzy accumulator
survives only when no exact match exists. -/
theorem searchFold_eq (sim : Sim) (query : Str) (l : List Item) :
    l.foldl (searchStep sim query) ([], []) =
      (exactsOf sim query l,
        if exactsOf sim query l = [] then fuzzyOf sim query l else []) := by
  induction l using List.reverseRecOn with
  | nil => simp [exactsOf, fuzzyOf]
  | append_singleton l x ih =>
    rw [List.foldl_append, ih, List.foldl_cons, List.foldl_nil,
      exactsOf_append, fuzzyOf_append, exactsOf_singleton, fuzzyOf_singleton]
    by_cases hx : itemScore sim x query = 1
    · simp only [hx, if_pos, searchStep, mkResult]
      by_cases hE : exactsOf sim query l = [] <;> simp [hE]
    · rw [if_neg hx]
      by_cases hE : exactsOf sim query l = []
      · by_cases hF : scoreFloor < itemScore sim x query
        · simp [searchStep, hx, hE, hF, mkResult]
        · simp [searchStep, hx, hE, hF]
      · simp [searchStep, hx, hE]

theorem itemScore_eq_one_iff (sim : Sim)
    (h1 : ∀ a b, sim a b = 1 ↔ a = b) (hle : ∀ a b, sim a b ≤ 1)
    (it : Item) (q : Str) :
    itemScore sim it q = 1 ↔ (it.search = q ∨ it.name = q) := by
  unfold itemScore
  by_cases hs : sim it.search q < 1
  · rw [if_pos hs]
    constructor
    · intro h
      rcases max_cases (sim it.search q) (sim it.name q) with ⟨hm, _⟩ | ⟨hm, _⟩
      · exact absurd (hm ▸ h) (ne_of_lt hs)
      · exact Or.inr ((h1 _ _).mp (hm ▸ h))
    · rintro (h | h)
      · exact absurd ((h1 _ _).mpr h) (fun he => absurd (he ▸ hs) (lt_irrefl 1))
      · rw [(h1 it.name q).mpr h]
        exact max_eq_right (hle _ _)
  · rw [if_neg hs]
    have heq : sim it.search q = 1 := le_antisymm (hle _ _) (not_lt.mp hs)
    exact ⟨fun _ => Or.inl ((h1 _ _).mp heq), fun _ => heq⟩

theorem simEq_eq_one : ∀ a b, simEq a b = 1 ↔ a = b := by
  intro a b
  by_cases h : a = b <;> simp [simEq, h]

theorem simEq_le_one : ∀ a b, simEq a b ≤ 1 := by
  intro a b
  by_cases h : a = b <;> simp [simEq, h]

/-- Claim C1: when at least one item's search key or bare name equals the
trimmed query (equivalently, its score is exactly 1), `Crate::search`
returns exactly the items whose score is 1, in graph-iteration order and
independently of `maxResults`; fuzzy matches accumulated before the first
exact match are discarded and fuzzy accumulation is skipped afterwards. -/
theorem search_exact_match_precedence (sim : Sim)
    (h1 : ∀ a b, sim a b = 1 ↔ a = b) (hle : ∀ a b, sim a b ≤ 1)
    (c : Crate) (query : Str) (maxResults : Option Nat)
    (hex : ∃ it ∈ itemsList c,
      it.search = trimmedQuery c query ∨ it.name = trimmedQuery c query) :
    Crate.search sim c query maxResults
        = exactsOf sim (trimmedQuery c query) (itemsList c)
    ∧ ∀ it ∈ itemsList c,
        (itemScore sim it (trimmedQuery c query) = 1 ↔
          (it.search = trimmedQuery c query ∨ it.name = trimmedQuery c query)) := by
  have hiff := fun it => itemScore_eq_one_iff sim h1 hle it (trimmedQuery c query)
  obtain ⟨it0, hmem, heq⟩ := hex
  have hx : itemScore sim it0 (trimmedQuery c query) = 1 := (hiff it0).mpr heq
  have hne : exactsOf sim (trimmedQuery c query) (itemsList c) ≠ [] := by
    have : mkResult sim (trimmedQuery c query) it0 ∈
        exactsOf sim (trimmedQuery c query) (itemsList c) := by
      apply List.mem_map_of_mem
      exact List.mem_filter.mpr ⟨hmem, by simp [hx]⟩
    exact List.ne_nil_of_mem this
  constructor
  · rw [Crate.search, searchFold_eq]
    simp [hne]
  · exact fun it _ => hiff it

/-- Witness for C1: a concrete graph and a fully qualified query whose
trimmed form matches one item exactly. -/
theorem search_exact_match_precedence_witness :
    (∃ it ∈ itemsList crateW,
        it.search = trimmedQuery crateW queryExact
          ∨ it.name = trimmedQuery crateW queryExact)
    ∧ (Crate.search simEq crateW queryExact (some 1)
          = exactsOf simEq (trimmedQuery crateW queryExact) (itemsList crateW)
        ∧ ∀ it ∈ itemsList crateW,
            (itemScore simEq it (trimmedQuery crateW queryExact) = 1 ↔
              (it.search = trimmedQuery crateW queryExact
                ∨ it.name = trimmedQuery crateW queryExact))) :=
  ⟨by decide,
    search_exact_match_precedence simEq simEq_eq_one simEq_le_one crateW
      queryExact (some 1) (by decide)⟩

theorem mem_insertScored (r a : SearchResult) (l : List SearchResult) :
    a ∈ insertScored r l ↔ a = r ∨ a ∈ l := by
  induction l with
  | nil => simp [insertScored]
  | cons x xs ih =>
    by_cases h : x.score < r.score
    · simp only [insertScored, if_pos h, List.mem_cons]
    · simp only [insertScored, if_neg h, List.mem_cons, ih]
      tauto

theorem pairwise_insertScored (r : SearchResult) (l : List SearchResult)
    (h : List.Pairwise (fun a b : SearchResult => b.score ≤ a.score) l) :
    List.Pairwise (fun a b : SearchResult => b.score ≤ a.score)
      (insertScored r l) := by
  induction l with
  | nil => simp [insertScored]
  | cons x xs ih =>
    rcases List.pairwise_cons.mp h with ⟨hx, hxs⟩
    by_cases hlt : x.score < r.score
    · rw [insertScored, if_pos hlt]
      refine List.pairwise_cons.mpr ⟨?_, h⟩
      intro b hb
      rcases List.mem_cons.mp hb with rfl | hb
      · exact le_of_lt hlt
      · exact le_trans (hx b hb) (le_of_lt hlt)
    · rw [insertScored, if_neg hlt]
      refine List.pairwise_cons.mpr ⟨?_, ih hxs⟩
      intro b hb
      rcases (mem_insertScored r b xs).mp hb with rfl | hb
      · exact not_lt.mp hlt
      · exact hx b hb

theorem mem_sortScored (a : SearchResult) (l : List SearchResult) :
    a ∈ sortScored l ↔ a ∈ l := by
  induction l with
  | nil => simp [sortScored]
  | cons x xs ih => simp [sortScored, mem_insertScored, ih]

theorem pairwise_sortScored (l : List SearchResult) :
    List.Pairwise (fun a b : SearchResult => b.score ≤ a.score) (sortScored l) := by
  induction l with
  | nil => simp [sortScored]
  | cons x xs ih =>
    rw [sortScored]
    exact pairwise_insertScored x _ ih

/-- Claim C2: with no exact match, every result scores strictly above 0.2,
results carry the score of their item against the trimmed query (search
key similarity, or its maximum with the bare-name similarity when below
1), the list is sorted descending by score, and its length is bounded by
`maxResults` (default 5). -/
theorem search_fuzzy_bounds (sim : Sim) (c : Crate) (query : Str)
    (maxResults : Option Nat)
    (hnone : ∀ it ∈ itemsList c, itemScore sim it (trimmedQuery c query) ≠ 1) :
    (∀ r ∈ Crate.search sim c query maxResults,
        (1 : ℚ) / 5 < r.score
        ∧ r.item ∈ itemsList c
        ∧ r.score = itemScore sim r.item (trimmedQuery c query))
    ∧ List.Pairwise (fun a b : SearchResult => b.score ≤ a.score)
        (Crate.search sim c query maxResults)
    ∧ (Crate.search sim c query maxResults).length ≤ maxResults.getD 5 := by
  have hE : exactsOf sim (trimmedQuery c query) (itemsList c) = [] := by
    rw [exactsOf]
    rw [List.map_eq_nil_iff]
    rw [List.filter_eq_nil_iff]
    intro it hmem
    simpa using hnone it hmem
  have hsearch : Crate.search sim c query maxResults
      = (sortScored (fuzzyOf sim (trimmedQuery c query) (itemsList c))).take
          (maxResults.getD 5) := by
    rw [Crate.search, searchFold_eq]
    simp [hE]
  refine ⟨?_, ?_, ?_⟩
  · intro r hr
    rw [hsearch] at hr
    have hr2 : r ∈ sortScored (fuzzyOf sim (trimmedQuery c query) (itemsList c)) :=
      (List.take_sublist _ _).subset hr
    have hr3 : r ∈ fuzzyOf sim (trimmedQuery c query) (itemsList c) :=
      (mem_sortScored _ _).mp hr2
    rw [fuzzyOf] at hr3
    rcases List.mem_map.mp hr3 with ⟨it, hitf, rfl⟩
    rcases List.mem_filter.mp hitf with ⟨hitl, hsc⟩
    have hsc2 : scoreFloor < itemScore sim it (trimmedQuery c query) := by
      simpa using hsc
    exact ⟨scoreFloor_eq ▸ hsc2, hitl, rfl⟩
  · rw [hsearch]
    exact List.Pairwise.sublist (List.take_sublist _ _) (pairwise_sortScored _)
  · rw [hsearch]
    exact List.length_take_le _ _

/-- Witness for C2: a concrete graph and query with no exact match under a
metric that scores one half on unequal strings. -/
theorem search_fuzzy_bounds_witness :
    (∀ it ∈ itemsList crateW,
        itemScore simNear it (trimmedQuery crateW queryFuzzy) ≠ 1)
    ∧ ((∀ r ∈ Crate.search simNear crateW queryFuzzy none,
          (1 : ℚ) / 5 < r.score
          ∧ r.item ∈ itemsList crateW
          ∧ r.score = itemScore simNear r.item (trimmedQuery crateW queryFuzzy))
        ∧ List.Pairwise (fun a b : SearchResult => b.score ≤ a.score)
            (Crate.search simNear crateW queryFuzzy none)
        ∧ (Crate.search simNear crateW queryFuzzy none).length ≤ (none : Option Nat).getD 5) :=
  ⟨by decide, search_fuzzy_bounds simNear crateW queryFuzzy none (by decide)⟩

/-! ## Child resolution (C3) -/

theorem mem_alInsert {κ α : Type} [DecidableEq κ] (l : List (κ × α)) (k : κ)
    (v : α) (p : κ × α) (hp : p ∈ alInsert l k v) : p ∈ l ∨ p = (k, v) := by
  rw [alInsert] at hp
  by_cases hc : l.any (fun q => decide (q.1 = k))
  · rw [if_pos hc] at hp
    rcases List.mem_map.mp hp with ⟨q, hq, hpq⟩
    by_cases hqk : q.1 = k
    · right
      rw [← hpq, if_pos hqk]
    · left
      rwa [← hpq, if_neg hqk]
  · rw [if_neg hc] at hp
    rcases List.mem_append.mp hp with h | h
    · exact Or.inl h
    · exact Or.inr (List.mem_singleton.mp h)

theorem memberStep_functions (krate : RawCrate) (st : Item × List (Id' × Item))
    (m : Id') (x : Str) (hx : x ∈ st.1.functions) :
    x ∈ (memberStep krate st m).1.functions := by
  rcases h1 : alLookup krate.index m with _ | info
  · simpa [memberStep, h1] using hx
  · rcases h2 : info.name with _ | nm
    · simpa [memberStep, h1, h2] using hx
    · rcases h3 : info.inner with impls | ⟨vs, impls⟩ | ⟨tn, its⟩ | _ | _ | _ | _ <;>
        simp [memberStep, h1, h2, h3] <;> exact Or.inl hx

theorem processImplMembers_functions_mono (krate : RawCrate)
    (ms : List Id') (st : Item × List (Id' × Item)) (x : Str)
    (hx : x ∈ st.1.functions) :
    x ∈ (processImplMembers st ms krate).1.functions := by
  induction ms generalizing st with
  | nil => exact hx
  | cons m rest ih =>
    rw [processImplMembers]
    exact ih _ (memberStep_functions krate st m x hx)

theorem processImplMembers_functions_mem (krate : RawCrate) (ms : List Id')
    (st : Item × List (Id' × Item)) (m : Id') (hm : m ∈ ms) (info : RawItem)
    (hl : alLookup krate.index m = some info) (nm : Str)
    (hn : info.name = some nm) :
    nm ∈ (processImplMembers st ms krate).1.functions := by
  induction ms generalizing st with
  | nil => cases hm
  | cons a rest ih =>
    rw [processImplMembers]
    rcases List.mem_cons.mp hm with rfl | hm2
    · apply processImplMembers_functions_mono
      rcases h3 : info.inner with impls | ⟨vs, impls⟩ | ⟨tn, its⟩ | _ | _ | _ | _ <;>
        simp [memberStep, hl, hn, h3]
    · exact ih _ hm2

theorem memberStep_adds (krate : RawCrate) (st : Item × List (Id' × Item))
    (m : Id') (p : Id' × Item) (hp : p ∈ (memberStep krate st m).2) :
    p ∈ st.2 ∨ p.2.kind = ItemKind.function := by
  rcases h1 : alLookup krate.index m with _ | info
  · simp only [memberStep, h1] at hp
    exact Or.inl hp
  · rcases h2 : info.name with _ | nm
    · simp only [memberStep, h1, h2] at hp
      exact Or.inl hp
    · rcases h3 : info.inner with impls | ⟨vs, impls⟩ | ⟨tn, its⟩ | _ | _ | _ | _ <;>
        simp only [memberStep, h1, h2, h3] at hp
      case functionInner =>
        rcases mem_alInsert _ _ _ _ hp with h | h
        · exact Or.inl h
        · rw [h]
          exact Or.inr rfl
      all_goals exact Or.inl hp

theorem processImplMembers_adds (krate : RawCrate) (ms : List Id')
    (st : Item × List (Id' × Item)) (p : Id' × Item)
    (hp : p ∈ (processImplMembers st ms krate).2) :
    p ∈ st.2 ∨ p.2.kind = ItemKind.function := by
  induction ms generalizing st with
  | nil => exact Or.inl hp
  | cons m rest ih =>
    rw [processImplMembers] at hp
    rcases ih _ hp with h | h
    · exact memberStep_adds krate st m p h
    · exact Or.inr h

theorem implStep_functions_mono (krate : RawCrate) (st : Item × List (Id' × Item))
    (i : Id') (x : Str) (hx : x ∈ st.1.functions) :
    x ∈ (implStep krate st i).1.functions := by
  rcases h1 : alLookup krate.index i with _ | info
  · simpa [implStep, h1] using hx
  · rcases h2 : info.inner with impls | ⟨vs, impls⟩ | ⟨tn, its⟩ | _ | _ | _ | _
    case implInner =>
      rcases h3 : tn with _ | t
      · simp only [implStep, h1, h2, h3]
        exact processImplMembers_functions_mono krate its st x hx
      · simpa [implStep, h1, h2, h3, Item.pushTraitImpl] using hx
    all_goals simpa [implStep, h1, h2] using hx

theorem processImpls_functions_mono (krate : RawCrate) (impls : List Id')
    (st : Item × List (Id' × Item)) (x : Str) (hx : x ∈ st.1.functions) :
    x ∈ (processImpls st impls krate).1.functions := by
  induction impls generalizing st with
  | nil => exact hx
  | cons i rest ih =>
    rw [processImpls]
    exact ih _ (implStep_functions_mono krate st i x hx)

theorem processImpls_functions_mem (krate : RawCrate) (impls : List Id')
    (st : Item × List (Id' × Item)) (implId : Id') (hi : implId ∈ impls)
    (implInfo : RawItem) (hl : alLookup krate.index implId = some implInfo)
    (members : List Id') (hm : implInfo.inner = ItemInner.implInner none members)
    (m : Id') (hmid : m ∈ members) (minfo : RawItem)
    (hml : alLookup krate.index m = some minfo) (nm : Str)
    (hn : minfo.name = some nm) :
    nm ∈ (processImpls st impls krate).1.functions := by
  induction impls generalizing st with
  | nil => cases hi
  | cons a rest ih =>
    rw [processImpls]
    rcases List.mem_cons.mp hi with rfl | hi2
    · apply processImpls_functions_mono
      have hstep : implStep krate st implId = processImplMembers st members krate := by
        simp [implStep, hl, hm]
      rw [hstep]
      exact processImplMembers_functions_mem krate members st m hmid minfo hml nm hn
    · exact ih _ hi2

theorem implStep_adds (krate : RawCrate) (st : Item × List (Id' × Item))
    (i : Id') (p : Id' × Item) (hp : p ∈ (implStep krate st i).2) :
    p ∈ st.2 ∨ p.2.kind = ItemKind.function := by
  rcases h1 : alLookup krate.index i with _ | info
  · simp only [implStep, h1] at hp
    exact Or.inl hp
  · rcases h2 : info.inner with impls | ⟨vs, impls⟩ | ⟨tn, its⟩ | _ | _ | _ | _ <;>
      simp only [implStep, h1, h2] at hp
    case implInner =>
      rcases h3 : tn with _ | t <;> simp only [h3] at hp
      · exact processImplMembers_adds krate its st p hp
      · exact Or.inl hp
    all_goals exact Or.inl hp

theorem processImpls_adds (krate : RawCrate) (impls : List Id')
    (st : Item × List (Id' × Item)) (p : Id' × Item)
    (hp : p ∈ (processImpls st impls krate).2) :
    p ∈ st.2 ∨ p.2.kind = ItemKind.function := by
  induction impls generalizing st with
  | nil => exact Or.inl hp
  | cons i rest ih =>
    rw [processImpls] at hp
    rcases ih _ hp with h | h
    · exact implStep_adds krate st i p h
    · exact Or.inr h

theorem variantStep_functions (krate : RawCrate) (st : Item × List (Id' × Item))
    (v : Id') : (variantStep krate st v).1.functions = st.1.functions := by
  rcases h1 : alLookup krate.index v with _ | info
  · simp [variantStep, h1]
  · rcases h2 : info.name with _ | nm
    · simp [variantStep, h1, h2]
    · simp [variantStep, h1, h2]

theorem processVariants_functions (krate : RawCrate) (vs : List Id')
    (st : Item × List (Id' × Item)) :
    (processVariants st vs krate).1.functions = st.1.functions := by
  induction vs generalizing st with
  | nil => rfl
  | cons v rest ih =>
    rw [processVariants, ih, variantStep_functions]

theorem variantStep_adds (krate : RawCrate) (st : Item × List (Id' × Item))
    (v : Id') (p : Id' × Item) (hp : p ∈ (variantStep krate st v).2) :
    p ∈ st.2 ∨ p.2.kind = ItemKind.variant := by
  rcases h1 : alLookup krate.index v with _ | info
  · simp only [variantStep, h1] at hp
    exact Or.inl hp
  · rcases h2 : info.name with _ | nm
    · simp only [variantStep, h1, h2] at hp
      exact Or.inl hp
    · simp only [variantStep, h1, h2] at hp
      rcases mem_alInsert _ _ _ _ hp with h | h
      · exact Or.inl h
      · rw [h]
        exact Or.inr rfl

theorem processVariants_adds (krate : RawCrate) (vs : List Id')
    (st : Item × List (Id' × Item)) (p : Id' × Item)
    (hp : p ∈ (processVariants st vs krate).2) :
    p ∈ st.2 ∨ p.2.kind = ItemKind.variant := by
  induction vs generalizing st with
  | nil => exact Or.inl hp
  | cons v rest ih =>
    rw [processVariants] at hp
    rcases ih _ hp with h | h
    · exact variantStep_adds krate st v p h
    · exact Or.inr h

/-- Counterexample for C3: in the concrete document `krateC3`, the single
inherent-impl member (id 3) is an associated constant, not a function, yet
after child resolution its name FOO appears in the parent's `functions`
list (the source pushes the name before matching on the member's kind);
no child item is synthesized for it.  This refutes the claim that a
member is appended to the functions list only when its kind is function
and that an unrecognized member contributes nothing to the parent's
child-name lists. -/
theorem resolve_children_nonfunction_pushed :
    (Item.resolveChildren itemS rawStructS krateC3 []).1.functions = [str ("FOO")]
    ∧ (Item.resolveChildren itemS rawStructS krateC3 []).2 = []
    ∧ alLookup krateC3.index 3 = some rawConstFoo
    ∧ rawConstFoo.inner ≠ ItemInner.functionInner := by decide

/-- Claim C3 (amended): during child resolution of a struct or enum item,
every present and named member of an inherent implementation block has its
name appended to the parent's `functions` list regardless of the member's
kind; a child item is synthesized only for members of function kind
(beyond the enum's variant children), so a member of an unrecognized kind
is skipped with a diagnostic and contributes no child item — but its name
still appears in the parent's `functions` list. -/
theorem resolve_children_member_handling (it : Item) (info : RawItem)
    (krate : RawCrate) (add0 : List (Id' × Item)) (impls : List Id')
    (hinner : info.inner = ItemInner.structInner impls ∨
      ∃ vs, info.inner = ItemInner.enumInner vs impls)
    (implId : Id') (hi : implId ∈ impls) (implInfo : RawItem)
    (hl : alLookup krate.index implId = some implInfo) (members : List Id')
    (hm : implInfo.inner = ItemInner.implInner none members) (memberId : Id')
    (hmid : memberId ∈ members) (minfo : RawItem)
    (hml : alLookup krate.index memberId = some minfo) (mname : Str)
    (hn : minfo.name = some mname) :
    mname ∈ (Item.resolveChildren it info krate add0).1.functions
    ∧ ∀ p ∈ (Item.resolveChildren it info krate add0).2,
        p ∈ add0 ∨ p.2.kind = ItemKind.function ∨ p.2.kind = ItemKind.variant := by
  rcases hinner with hs | ⟨vs, he⟩
  · constructor
    · rw [Item.resolveChildren, hs]
      exact processImpls_functions_mem krate impls (it, add0) implId hi implInfo hl
        members hm memberId hmid minfo hml mname hn
    · intro p hp
      rw [Item.resolveChildren, hs] at hp
      rcases processImpls_adds krate impls (it, add0) p hp with h | h
      · exact Or.inl h
      · exact Or.inr (Or.inl h)
  · constructor
    · rw [Item.resolveChildren, he]
      exact processImpls_functions_mem krate impls _ implId hi implInfo hl
        members hm memberId hmid minfo hml mname hn
    · intro p hp
      rw [Item.resolveChildren, he] at hp
      rcases processImpls_adds krate impls _ p hp with h | h
      · rcases processVariants_adds krate vs (it, add0) p h with h2 | h2
        · exact Or.inl h2
        · exact Or.inr (Or.inr h2)
      · exact Or.inr (Or.inl h)

/-- Witness for the amended C3, at the concrete document `krateC3`. -/
theorem resolve_children_member_handling_witness :
    (rawStructS.inner = ItemInner.structInner [2] ∨
      ∃ vs, rawStructS.inner = ItemInner.enumInner vs [2])
    ∧ ((2 : Id') ∈ [(2 : Id')])
    ∧ alLookup krateC3.index 2 = some rawImplInherent
    ∧ rawImplInherent.inner = ItemInner.implInner none [3]
    ∧ ((3 : Id') ∈ [(3 : Id')])
    ∧ alLookup krateC3.index 3 = some rawConstFoo
    ∧ rawConstFoo.name = some (str ("FOO"))
    ∧ (str ("FOO") ∈ (Item.resolveChildren itemS rawStructS krateC3 []).1.functions
        ∧ ∀ p ∈ (Item.resolveChildren itemS rawStructS krateC3 []).2,
            p ∈ ([] : List (Id' × Item)) ∨ p.2.kind = ItemKind.function
              ∨ p.2.kind = ItemKind.variant) :=
  ⟨Or.inl (by decide), by decide, by decide, by decide, by decide, by decide, by decide,
    resolve_children_member_handling itemS rawStructS krateC3 [] [2]
      (Or.inl (by decide)) 2 (by decide) rawImplInherent (by decide) [3] (by decide)
      3 (by decide) rawConstFoo (by decide) (str ("FOO")) (by decide)⟩

/-! ## Path index (C4) -/

/-- Counterexample for C4: the one-item document builds a graph whose
items map holds the root module under its path, yet the path index has no
entry for that path — `from_crate` never populates `paths`. -/
theorem crate_paths_missing_entry :
    Crate.fromCrate krateC4 none = some builtC4
    ∧ builtC4.items.map (fun p => p.2.path) = [str ("test_crate")]
    ∧ alLookup builtC4.paths (str ("test_crate")) = none
    ∧ builtC4.paths = [] := by decide

/-- Claim C4 (amended): the path index of every graph produced by the
builder is empty — `from_crate` creates `paths` empty and never inserts
into it, so it contains an entry for no item at all. -/
theorem fromCrate_paths_empty (krate : RawCrate) (nm : Option Str) (c : Crate)
    (h : Crate.fromCrate krate nm = some c) : c.paths = [] := by
  simp only [Crate.fromCrate] at h
  split at h
  · exact absurd h (by simp)
  · split at h
    · exact absurd h (by simp)
    · rw [Option.some_inj] at h
      rw [← h]

/-- Witness for the amended C4, at the concrete one-item document. -/
theorem fromCrate_paths_empty_witness :
    Crate.fromCrate krateC4 none = some builtC4 ∧ builtC4.paths = [] :=
  ⟨by decide, fromCrate_paths_empty krateC4 none builtC4 (by decide)⟩

/-! ## TTL cache (C5, C6, C10) -/

theorem alLookup_mem {κ α : Type} [DecidableEq κ] (l : List (κ × α)) (k : κ)
    (e : α) (h : alLookup l k = some e) : ∃ k', (k', e) ∈ l := by
  rw [alLookup] at h
  rcases hf : l.find? (fun p => decide (p.1 = k)) with _ | p
  · rw [hf] at h
    cases h
  · rw [hf] at h
    refine ⟨p.1, ?_⟩
    have hp : p ∈ l := List.mem_of_find?_eq_some hf
    have : p.2 = e := by simpa using h
    rwa [← this, Prod.mk.eta]

/-- Claim C5: `get` returns the stored value exactly when an entry for the
key exists and its age (now minus insertion time) is strictly below the
TTL; in every case — hit, stale entry, or absent key — the store is left
unchanged, so a stale entry survives until `cleanup` or an eviction at
insert time.  The hypothesis says the clock is consistent: no stored
timestamp lies in the future. -/
theorem cache_get_ttl {α : Type} (c : Cache α) (k : Str) (now : Nat) (v : α)
    (hclock : ∀ p ∈ c.entries, p.2.timestamp ≤ now) :
    ((c.get k now).1 = some v ↔
      ∃ e, alLookup c.entries k = some e ∧ e.data = v
        ∧ now - e.timestamp < c.ttl)
    ∧ (c.get k now).2 = c := by
  refine ⟨?_, ?_⟩
  · rcases hl : alLookup c.entries k with _ | e
    · simp [Cache.get, hl]
    · obtain ⟨k', hmem⟩ := alLookup_mem c.entries k e hl
      have hts : e.timestamp ≤ now := hclock (k', e) hmem
      simp only [Cache.get, hl]
      by_cases hv : now - e.timestamp < c.ttl
      · have hval : c.isValid e now = true := by
          simp [Cache.isValid, hts, hv]
        rw [if_pos hval]
        constructor
        · intro h
          exact ⟨e, rfl, by simpa using h, hv⟩
        · rintro ⟨e', he', hd, _⟩
          rw [Option.some_inj] at he'
          rw [← he'] at hd
          rw [hd]
      · have hval : ¬ (c.isValid e now = true) := by
          simp [Cache.isValid, hts, hv]
        rw [if_neg hval]
        constructor
        · intro h
          cases h
        · rintro ⟨e', he', _, hv'⟩
          rw [Option.some_inj] at he'
          rw [← he'] at hv'
          exact absurd hv' hv
  · rcases hl : alLookup c.entries k with _ | e <;> simp [Cache.get, hl]

/-- Witness for C5, at a concrete one-entry cache: at age 2 with TTL 10
the value is returned and the store is unchanged. -/
theorem cache_get_ttl_witness :
    (∀ p ∈ cacheW.entries, p.2.timestamp ≤ 7)
    ∧ (((cacheW.get (str ("k")) 7).1 = some 42 ↔
        ∃ e, alLookup cacheW.entries (str ("k")) = some e ∧ e.data = 42
          ∧ 7 - e.timestamp < cacheW.ttl)
      ∧ (cacheW.get (str ("k")) 7).2 = cacheW) :=
  ⟨by decide, cache_get_ttl cacheW (str ("k")) 7 42 (by decide)⟩

theorem foldl_min_spec {α : Type} (xs : List (Str × CacheEntry α))
    (x : Str × CacheEntry α) :
    (xs.foldl (fun best y => if y.2.timestamp < best.2.timestamp then y else best) x = x
      ∨ xs.foldl (fun best y => if y.2.timestamp < best.2.timestamp then y else best) x ∈ xs)
    ∧ (xs.foldl (fun best y => if y.2.timestamp < best.2.timestamp then y else best) x).2.timestamp
        ≤ x.2.timestamp
    ∧ ∀ q ∈ xs,
        (xs.foldl (fun best y => if y.2.timestamp < best.2.timestamp then y else best) x).2.timestamp
          ≤ q.2.timestamp := by
  induction xs generalizing x with
  | nil => exact ⟨Or.inl rfl, le_refl _, by simp⟩
  | cons y ys ih =>
    rw [List.foldl_cons]
    by_cases hc : y.2.timestamp < x.2.timestamp
    · rw [if_pos hc]
      obtain ⟨hmem, hle, hall⟩ := ih y
      refine ⟨?_, ?_, ?_⟩
      · rcases hmem with h | h
        · exact Or.inr (by rw [h]; exact List.mem_cons_self y ys)
        · exact Or.inr (List.mem_cons_of_mem y h)
      · exact le_trans hle (le_of_lt hc)
      · intro q hq
        rcases List.mem_cons.mp hq with rfl | hq2
        · exact hle
        · exact hall q hq2
    · rw [if_neg hc]
      obtain ⟨hmem, hle, hall⟩ := ih x
      refine ⟨?_, ?_, ?_⟩
      · rcases hmem with h | h
        · exact Or.inl h
        · exact Or.inr (List.mem_cons_of_mem y h)
      · exact hle
      · intro q hq
        rcases List.mem_cons.mp hq with rfl | hq2
        · exact le_trans hle (not_lt.mp hc)
        · exact hall q hq2

theorem oldestEntry_spec {α : Type} (l : List (Str × CacheEntry α)) (hne : l ≠ []) :
    ∃ p0, oldestEntry l = some p0 ∧ p0 ∈ l
      ∧ ∀ q ∈ l, p0.2.timestamp ≤ q.2.timestamp := by
  rcases l with _ | ⟨x, xs⟩
  · exact absurd rfl hne
  · obtain ⟨hmem, hle, hall⟩ := foldl_min_spec xs x
    refine ⟨_, rfl, ?_, ?_⟩
    · rcases hmem with h | h
      · rw [h]
        exact List.mem_cons_self x xs
      · exact List.mem_cons_of_mem x h
    · intro q hq
      rcases List.mem_cons.mp hq with rfl | hq2
      · exact hle
      · exact hall q hq2

theorem foldl_min_keep {α : Type} (xs : List (Str × CacheEntry α))
    (x : Str × CacheEntry α) (h : ∀ y ∈ xs, ¬ y.2.timestamp < x.2.timestamp) :
    xs.foldl (fun best y => if y.2.timestamp < best.2.timestamp then y else best) x = x := by
  induction xs with
  | nil => rfl
  | cons y ys ih =>
    rw [List.foldl_cons, if_neg (h y (List.mem_cons_self y ys))]
    exact ih (fun z hz => h z (List.mem_cons_of_mem y hz))

theorem oldestEntry_head {α : Type} (x : Str × CacheEntry α)
    (xs : List (Str × CacheEntry α))
    (hmin : ∀ q ∈ xs, ¬ q.2.timestamp < x.2.timestamp) :
    oldestEntry (x :: xs) = some x := by
  simp only [oldestEntry]
  rw [foldl_min_keep xs x hmin]

theorem alRemove_cons_self {κ α : Type} [DecidableEq κ] (x : κ × α)
    (xs : List (κ × α)) (h : ∀ q ∈ xs, q.1 ≠ x.1) :
    alRemove (x :: xs) x.1 = xs := by
  rw [alRemove, List.filter_cons]
  have h1 : ¬ (decide (x.1 ≠ x.1) = true) := by simp
  rw [if_neg h1]
  exact List.filter_eq_self.mpr (fun q hq => by simpa using h q hq)

theorem alInsert_fresh {κ α : Type} [DecidableEq κ] (l : List (κ × α)) (k : κ)
    (v : α) (h : ∀ p ∈ l, p.1 ≠ k) : alInsert l k v = l ++ [(k, v)] := by
  have hany : l.any (fun p => decide (p.1 = k)) = false := by
    rw [List.any_eq_false]
    intro p hp
    simpa using h p hp
  rw [alInsert, hany]
  simp

theorem cache_insert_full_eq {α : Type} (c : Cache α) (k : Str) (v : α) (t : Nat)
    (hfull : c.maxSize ≤ c.entries.length) (p0 : Str × CacheEntry α)
    (hold : oldestEntry c.entries = some p0) :
    (c.insert k v t).entries = alInsert (alRemove c.entries p0.1) k ⟨v, t⟩ := by
  simp only [Cache.insert]
  rw [if_pos hfull, hold]

theorem cache_insert_room_eq {α : Type} (c : Cache α) (k : Str) (v : α) (t : Nat)
    (hroom : ¬ c.maxSize ≤ c.entries.length) :
    (c.insert k v t).entries = alInsert c.entries k ⟨v, t⟩ := by
  simp only [Cache.insert]
  rw [if_neg hroom]

theorem insertSeq_under_capacity {α : Type} (ttl n : Nat)
    (L : List (Str × α × Nat)) (hlen : L.length ≤ n)
    (hkeys : (L.map Prod.fst).Nodup) :
    insertSeq (⟨[], ttl, n⟩ : Cache α) L
      = ⟨L.map (fun p => (p.1, ⟨p.2.1, p.2.2⟩)), ttl, n⟩ := by
  induction L using List.reverseRecOn with
  | nil => rfl
  | append_singleton L' x ih =>
    have hstep : insertSeq (⟨[], ttl, n⟩ : Cache α) (L' ++ [x])
        = (insertSeq (⟨[], ttl, n⟩ : Cache α) L').insert x.1 x.2.1 x.2.2 := by
      rw [insertSeq, insertSeq, List.foldl_append, List.foldl_cons, List.foldl_nil]
    have hlen' : L'.length + 1 ≤ n := by simpa using hlen
    have hkeys' : (L'.map Prod.fst).Nodup := by
      rw [List.map_append] at hkeys
      exact hkeys.of_append_left
    have hfresh : ∀ p ∈ L'.map (fun p : Str × α × Nat => (p.1, (⟨p.2.1, p.2.2⟩ : CacheEntry α))),
        p.1 ≠ x.1 := by
      intro p hp
      rw [List.map_append] at hkeys
      rcases (List.nodup_append.mp hkeys) with ⟨_, _, hdisj⟩
      rcases List.mem_map.mp hp with ⟨q, hq, rfl⟩
      intro hqx
      have hqx' : q.1 = x.1 := hqx
      exact hdisj (List.mem_map_of_mem _ hq) (by simp [hqx'])
    rw [hstep, ih (Nat.le_of_succ_le hlen') hkeys']
    have hroom : ¬ (n ≤ (L'.map (fun p : Str × α × Nat =>
        (p.1, (⟨p.2.1, p.2.2⟩ : CacheEntry α)))).length) := by
      rw [List.length_map]
      omega
    have hins := cache_insert_room_eq
      (⟨L'.map (fun p : Str × α × Nat => (p.1, ⟨p.2.1, p.2.2⟩)), ttl, n⟩ : Cache α)
      x.1 x.2.1 x.2.2 hroom
    have hmax : ((⟨L'.map (fun p : Str × α × Nat => (p.1, ⟨p.2.1, p.2.2⟩)), ttl, n⟩ :
        Cache α).insert x.1 x.2.1 x.2.2).ttl = ttl ∧
        ((⟨L'.map (fun p : Str × α × Nat => (p.1, ⟨p.2.1, p.2.2⟩)), ttl, n⟩ :
          Cache α).insert x.1 x.2.1 x.2.2).maxSize = n := ⟨rfl, rfl⟩
    rcases hc : (⟨L'.map (fun p : Str × α × Nat => (p.1, ⟨p.2.1, p.2.2⟩)), ttl, n⟩ :
        Cache α).insert x.1 x.2.1 x.2.2 with ⟨e', t', m'⟩
    rw [hc] at hins hmax
    simp only at hins hmax
    rw [hins] at *
    rw [alInsert_fresh _ _ _ hfresh]
    rw [hmax.1, hmax.2]
    simp

theorem alLookup_isSome_iff {κ α : Type} [DecidableEq κ] (l : List (κ × α))
    (k : κ) : (alLookup l k).isSome = true ↔ k ∈ l.map Prod.fst := by
  induction l with
  | nil => simp [alLookup]
  | cons p ps ih =>
    by_cases hp : p.1 = k
    · rw [alLookup, List.find?_cons_of_pos _ (by simp [hp])]
      simp [hp]
    · rw [alLookup, List.find?_cons_of_neg _ (by simp [hp]), ← alLookup, ih]
      simp only [List.map_cons, List.mem_cons]
      constructor
      · exact Or.inr
      · rintro (h | h)
        · exact absurd h.symm hp
        · exact h


/-- The entries of a cache after inserting `maxSize + 1` distinct keys at
strictly increasing timestamps into a fresh cache of capacity
`maxSize = n ≥ 1`: the earliest-inserted entry is evicted on the last
insert, leaving exactly the later entries. -/
theorem insertSeq_eviction {α : Type} (ttl n : Nat) (hn : 1 ≤ n)
    (L : List (Str × α × Nat)) (hlen : L.length = n + 1)
    (hkeys : (L.map Prod.fst).Nodup)
    (hts : List.Pairwise (fun p q : Str × α × Nat => p.2.2 < q.2.2) L) :
    (insertSeq (⟨[], ttl, n⟩ : Cache α) L).entries
      = (L.drop 1).map (fun p => (p.1, ⟨p.2.1, p.2.2⟩)) := by
  obtain ⟨L', x, rfl⟩ : ∃ L' x, L = L' ++ [x] := by
    rcases List.eq_nil_or_concat L with h | ⟨L', b, h⟩
    · rw [h] at hlen
      exact absurd hlen (by simp)
    · exact ⟨L', b, by rw [h, List.concat_eq_append]⟩
  obtain ⟨h0, tl, rfl⟩ : ∃ h0 tl, L' = h0 :: tl := by
    cases L' with
    | nil =>
      exfalso
      rw [List.length_append] at hlen
      simp only [List.length_nil, List.length_cons] at hlen
      omega
    | cons a as => exact ⟨a, as, rfl⟩
  have hkeys' : (h0.1 :: (tl.map Prod.fst ++ [x.1])).Nodup := by
    simpa only [List.cons_append, List.map_cons, List.map_append,
      List.map_nil] using hkeys
  have hk1 : h0.1 ∉ tl.map Prod.fst ++ [x.1] := (List.nodup_cons.mp hkeys').1
  have hk2 : (tl.map Prod.fst ++ [x.1]).Nodup := (List.nodup_cons.mp hkeys').2
  have hh0_tl : h0.1 ∉ tl.map Prod.fst := fun hx => hk1 (List.mem_append_left _ hx)
  have hx_tl : x.1 ∉ tl.map Prod.fst := by
    rcases List.nodup_append.mp hk2 with ⟨_, _, hdisj⟩
    intro hx
    exact hdisj hx (by simp)
  have hprefix_keys : ((h0 :: tl).map Prod.fst).Nodup := by
    rw [List.map_cons, List.nodup_cons]
    exact ⟨hh0_tl, (List.nodup_append.mp hk2).1⟩
  have hts' : List.Pairwise (fun p q : Str × α × Nat => p.2.2 < q.2.2)
      (h0 :: (tl ++ [x])) := by simpa only [List.cons_append] using hts
  have hts_head : ∀ y ∈ tl, h0.2.2 < y.2.2 := fun y hy =>
    (List.pairwise_cons.mp hts').1 y (List.mem_append_left _ hy)
  have hlen' : tl.length + 1 = n := by
    rw [List.length_append, List.length_cons] at hlen
    simp only [List.length_nil, List.length_cons] at hlen
    omega
  have hpre := insertSeq_under_capacity (α := α) ttl n (h0 :: tl)
    (by simp only [List.length_cons]; omega) hprefix_keys
  have hstep : insertSeq (⟨[], ttl, n⟩ : Cache α) ((h0 :: tl) ++ [x])
      = (insertSeq (⟨[], ttl, n⟩ : Cache α) (h0 :: tl)).insert x.1 x.2.1 x.2.2 := by
    rw [insertSeq, insertSeq, List.foldl_append, List.foldl_cons, List.foldl_nil]
  rw [hstep, hpre]
  have hfull : (⟨(h0 :: tl).map (fun p : Str × α × Nat => (p.1, ⟨p.2.1, p.2.2⟩)),
      ttl, n⟩ : Cache α).maxSize
      ≤ (⟨(h0 :: tl).map (fun p : Str × α × Nat => (p.1, ⟨p.2.1, p.2.2⟩)),
        ttl, n⟩ : Cache α).entries.length := by
    simp only [List.length_map, List.length_cons]
    omega
  have hold : oldestEntry ((h0 :: tl).map
      (fun p : Str × α × Nat => (p.1, (⟨p.2.1, p.2.2⟩ : CacheEntry α))))
      = some (h0.1, ⟨h0.2.1, h0.2.2⟩) := by
    rw [List.map_cons]
    apply oldestEntry_head
    intro q hq
    rcases List.mem_map.mp hq with ⟨y, hy, rfl⟩
    simp only [not_lt]
    exact le_of_lt (hts_head y hy)
  rw [cache_insert_full_eq _ _ _ _ hfull _ hold]
  have hrem : alRemove ((h0 :: tl).map
      (fun p : Str × α × Nat => (p.1, (⟨p.2.1, p.2.2⟩ : CacheEntry α))))
      (h0.1, (⟨h0.2.1, h0.2.2⟩ : CacheEntry α)).1
      = tl.map (fun p : Str × α × Nat => (p.1, ⟨p.2.1, p.2.2⟩)) := by
    rw [List.map_cons]
    apply alRemove_cons_self
    intro q hq
    rcases List.mem_map.mp hq with ⟨y, hy, rfl⟩
    intro hcontr
    have hcontr' : y.1 = h0.1 := hcontr
    exact hh0_tl (by rw [← hcontr']; exact List.mem_map_of_mem _ hy)
  rw [hrem]
  rw [alInsert_fresh]
  · simp
  · intro p hp
    rcases List.mem_map.mp hp with ⟨y, hy, rfl⟩
    intro hcontr
    have hcontr' : y.1 = x.1 := hcontr
    exact hx_tl (by rw [← hcontr']; exact List.mem_map_of_mem _ hy)

/-- Counterexample for C6: with capacity `maxSize = 0`, inserting
`maxSize + 1 = 1` distinct key into the empty cache evicts nothing (there
is nothing to evict) and leaves the single — earliest-inserted — key
present, contradicting the claim as stated for every capacity. -/
theorem cache_eviction_zero_capacity :
    ((cacheZero.insert (str ("k1")) 7 0).get (str ("k1")) 0).1 = some 7
    ∧ (cacheZero.insert (str ("k1")) 7 0).entries.length = 1
    ∧ cacheZero.maxSize = 0 ∧ cacheZero.entries.length = 0 := by decide

/-- Claim C6 (amended, capacity at least 1): an insert into a nonempty
store holding at least `maxSize` entries first evicts exactly the entry
with the oldest timestamp, then inserts the new entry; and inserting
`maxSize + 1` distinct keys with strictly increasing timestamps into a
fresh cache of capacity `maxSize ≥ 1` leaves exactly the later keys
stored: the earliest-inserted key is absent and all later keys are
present. -/
theorem cache_insert_lru {α : Type} (c : Cache α) (k : Str) (v : α) (t : Nat)
    (hfull : c.maxSize ≤ c.entries.length) (hne : c.entries ≠ [])
    (ttl n : Nat) (hn : 1 ≤ n) (L : List (Str × α × Nat))
    (hlen : L.length = n + 1) (hkeys : (L.map Prod.fst).Nodup)
    (hts : List.Pairwise (fun p q : Str × α × Nat => p.2.2 < q.2.2) L) :
    (∃ p0, oldestEntry c.entries = some p0 ∧ p0 ∈ c.entries
      ∧ (∀ q ∈ c.entries, p0.2.timestamp ≤ q.2.timestamp)
      ∧ (c.insert k v t).entries = alInsert (alRemove c.entries p0.1) k ⟨v, t⟩)
    ∧ (insertSeq (⟨[], ttl, n⟩ : Cache α) L).entries
        = (L.drop 1).map (fun p => (p.1, ⟨p.2.1, p.2.2⟩))
    ∧ (∀ k0, k0 ∈ L.map Prod.fst → k0 ∉ (L.drop 1).map Prod.fst →
        alLookup (insertSeq (⟨[], ttl, n⟩ : Cache α) L).entries k0 = none)
    ∧ (∀ k1 ∈ (L.drop 1).map Prod.fst,
        (alLookup (insertSeq (⟨[], ttl, n⟩ : Cache α) L).entries k1).isSome = true) := by
  have hseq := insertSeq_eviction ttl n hn L hlen hkeys hts
  have hkeyseq : ((L.drop 1).map
      (fun p : Str × α × Nat => (p.1, (⟨p.2.1, p.2.2⟩ : CacheEntry α)))).map Prod.fst
      = (L.drop 1).map Prod.fst := by
    rw [List.map_map]
    rfl
  refine ⟨?_, hseq, ?_, ?_⟩
  · obtain ⟨p0, hold, hmem, hmin⟩ := oldestEntry_spec c.entries hne
    exact ⟨p0, hold, hmem, hmin, cache_insert_full_eq c k v t hfull p0 hold⟩
  · intro k0 _ habs
    have := (alLookup_isSome_iff (insertSeq (⟨[], ttl, n⟩ : Cache α) L).entries k0)
    rw [hseq, hkeyseq] at this
    rcases ho : alLookup ((L.drop 1).map
        (fun p : Str × α × Nat => (p.1, (⟨p.2.1, p.2.2⟩ : CacheEntry α)))) k0 with _ | e
    · rw [hseq]
      exact ho
    · exfalso
      apply habs
      apply this.mp
      rw [ho]
      rfl
  · intro k1 hk1
    rw [hseq]
    have := (alLookup_isSome_iff ((L.drop 1).map
        (fun p : Str × α × Nat => (p.1, (⟨p.2.1, p.2.2⟩ : CacheEntry α)))) k1)
    rw [hkeyseq] at this
    exact this.mpr hk1

/-- Witness for the amended C6: a concrete full two-entry cache, and
three distinct keys inserted into a fresh capacity-2 cache. -/
theorem cache_insert_lru_witness :
    (cacheFull.maxSize ≤ cacheFull.entries.length ∧ cacheFull.entries ≠ []
      ∧ 1 ≤ 2 ∧ seqW.length = 2 + 1 ∧ (seqW.map Prod.fst).Nodup
      ∧ List.Pairwise (fun p q : Str × Nat × Nat => p.2.2 < q.2.2) seqW)
    ∧ ((∃ p0, oldestEntry cacheFull.entries = some p0 ∧ p0 ∈ cacheFull.entries
        ∧ (∀ q ∈ cacheFull.entries, p0.2.timestamp ≤ q.2.timestamp)
        ∧ (cacheFull.insert (str ("c")) 9 5).entries
            = alInsert (alRemove cacheFull.entries p0.1) (str ("c")) ⟨9, 5⟩)
      ∧ (insertSeq (⟨[], 100, 2⟩ : Cache Nat) seqW).entries
          = (seqW.drop 1).map (fun p => (p.1, ⟨p.2.1, p.2.2⟩))
      ∧ (∀ k0, k0 ∈ seqW.map Prod.fst → k0 ∉ (seqW.drop 1).map Prod.fst →
          alLookup (insertSeq (⟨[], 100, 2⟩ : Cache Nat) seqW).entries k0 = none)
      ∧ (∀ k1 ∈ (seqW.drop 1).map Prod.fst,
          (alLookup (insertSeq (⟨[], 100, 2⟩ : Cache Nat) seqW).entries k1).isSome
            = true)) :=
  ⟨⟨by decide, by decide, by decide, by decide, by decide, by decide⟩,
    cache_insert_lru cacheFull (str ("c")) 9 5 (by decide) (by decide) 100 2
      (by decide) seqW (by decide) (by decide) (by decide)⟩

theorem alInsert_length_le {κ α : Type} [DecidableEq κ] (l : List (κ × α))
    (k : κ) (v : α) : (alInsert l k v).length ≤ l.length + 1 := by
  rw [alInsert]
  split
  · rw [List.length_map]
    omega
  · rw [List.length_append]
    simp

theorem alRemove_length_lt {κ α : Type} [DecidableEq κ] (l : List (κ × α))
    (p : κ × α) (hp : p ∈ l) : (alRemove l p.1).length < l.length := by
  rw [alRemove]
  exact List.length_filter_lt_length_iff_exists.mpr ⟨p, hp, by simp⟩

theorem cache_op_length {α : Type} (c : Cache α) (op : CacheOp α)
    (hm : 1 ≤ c.maxSize) (hlen : c.entries.length ≤ c.maxSize) :
    (applyOp c op).entries.length ≤ c.maxSize
    ∧ (applyOp c op).maxSize = c.maxSize := by
  cases op with
  | insertOp k v t =>
    refine ⟨?_, rfl⟩
    show (c.insert k v t).entries.length ≤ c.maxSize
    by_cases hfull : c.maxSize ≤ c.entries.length
    · have hne : c.entries ≠ [] := by
        intro h
        rw [h] at hfull
        simp only [List.length_nil] at hfull
        omega
      obtain ⟨p0, hold, hmem, _⟩ := oldestEntry_spec c.entries hne
      rw [cache_insert_full_eq c k v t hfull p0 hold]
      have h1 := alInsert_length_le (alRemove c.entries p0.1) k
        (⟨v, t⟩ : CacheEntry α)
      have h2 := alRemove_length_lt c.entries p0 hmem
      omega
    · rw [cache_insert_room_eq c k v t hfull]
      have h1 := alInsert_length_le c.entries k (⟨v, t⟩ : CacheEntry α)
      omega
  | getOp k t =>
    have hg : (c.get k t).2 = c := by
      rcases hl : alLookup c.entries k with _ | e <;> simp [Cache.get, hl]
    constructor
    · show ((c.get k t).2).entries.length ≤ c.maxSize
      rw [hg]
      exact hlen
    · show ((c.get k t).2).maxSize = c.maxSize
      rw [hg]
  | cleanupOp t =>
    refine ⟨?_, rfl⟩
    show ((c.cleanup t).entries).length ≤ c.maxSize
    exact le_trans (List.length_filter_le _ _) hlen

theorem cache_ops_length {α : Type} (ops : List (CacheOp α)) (c : Cache α)
    (hm : 1 ≤ c.maxSize) (hlen : c.entries.length ≤ c.maxSize) :
    (applyOps c ops).entries.length ≤ c.maxSize := by
  induction ops generalizing c with
  | nil => exact hlen
  | cons op rest ih =>
    have hstep : applyOps c (op :: rest) = applyOps (applyOp c op) rest := by
      rw [applyOps, applyOps, List.foldl_cons]
    obtain ⟨h1, h2⟩ := cache_op_length c op hm hlen
    have := ih (applyOp c op) (h2 ▸ hm) (h2 ▸ h1)
    rw [hstep]
    rwa [h2] at this

/-- Claim C10: starting from an empty cache of capacity `maxSize = n ≥ 1`,
no sequence of insert, get, and cleanup operations ever leaves more than
`maxSize` entries stored; moreover an insert performed while the store is
full evicts the oldest-timestamped entry first even when the inserted key
already exists (the eviction happens before — and independently of — the
overwriting insert). -/
theorem cache_size_bound (α : Type) (ttl n : Nat) (hn : 1 ≤ n)
    (ops : List (CacheOp α)) (c : Cache α) (k : Str) (v : α) (t : Nat)
    (hfull : c.maxSize ≤ c.entries.length) (hne : c.entries ≠ []) :
    (applyOps (⟨[], ttl, n⟩ : Cache α) ops).entries.length ≤ n
    ∧ ∃ p0, oldestEntry c.entries = some p0
        ∧ (∀ q ∈ c.entries, p0.2.timestamp ≤ q.2.timestamp)
        ∧ (c.insert k v t).entries = alInsert (alRemove c.entries p0.1) k ⟨v, t⟩ := by
  constructor
  · exact cache_ops_length ops (⟨[], ttl, n⟩ : Cache α) hn (by simp)
  · obtain ⟨p0, hold, _, hmin⟩ := oldestEntry_spec c.entries hne
    exact ⟨p0, hold, hmin, cache_insert_full_eq c k v t hfull p0 hold⟩

/-- Witness for C10: a concrete operation sequence on a capacity-2 cache,
and an insert of an already-present key into the full cache. -/
theorem cache_size_bound_witness :
    (1 ≤ 2 ∧ cacheFull.maxSize ≤ cacheFull.entries.length
      ∧ cacheFull.entries ≠ [])
    ∧ ((applyOps (⟨[], 50, 2⟩ : Cache Nat) opsW).entries.length ≤ 2
      ∧ ∃ p0, oldestEntry cacheFull.entries = some p0
          ∧ (∀ q ∈ cacheFull.entries, p0.2.timestamp ≤ q.2.timestamp)
          ∧ (cacheFull.insert (str ("a")) 9 5).entries
              = alInsert (alRemove cacheFull.entries p0.1) (str ("a")) ⟨9, 5⟩) :=
  ⟨⟨by decide, by decide, by decide⟩,
    cache_size_bound Nat 50 2 (by decide) opsW cacheFull (str ("a")) 9 5
      (by decide) (by decide)⟩

/-! ## Registry client (C7, C8) -/

theorem semverLt_asymm (a b : VersionInfo) (h : semverLt a b) : ¬ semverLt b a := by
  unfold semverLt at *
  omega

theorem semverLe_refl (a : VersionInfo) : semverLe a a := by
  unfold semverLe semverLt
  omega

theorem semverLe_trans (a b c : VersionInfo) (h1 : semverLe a b)
    (h2 : semverLe b c) : semverLe a c := by
  unfold semverLe semverLt at *
  omega

theorem hnvPick_mem (acc : Option VersionInfo) (v b : VersionInfo)
    (hb : hnvPick acc v = some b) : b = v ∨ acc = some b := by
  rcases acc with _ | a
  · simp only [hnvPick] at hb
    exact Or.inl (Option.some_inj.mp hb).symm
  · simp only [hnvPick] at hb
    by_cases hlt : semverLt a v
    · rw [if_pos hlt] at hb
      exact Or.inl (Option.some_inj.mp hb).symm
    · rw [if_neg hlt] at hb
      exact Or.inr hb

theorem hnvPick_le_v (acc : Option VersionInfo) (v : VersionInfo) :
    ∃ b, hnvPick acc v = some b ∧ semverLe v b := by
  rcases acc with _ | a
  · exact ⟨v, by simp only [hnvPick], semverLe_refl v⟩
  · by_cases hlt : semverLt a v
    · refine ⟨v, ?_, semverLe_refl v⟩
      simp only [hnvPick]
      rw [if_pos hlt]
    · refine ⟨a, ?_, hlt⟩
      simp only [hnvPick]
      rw [if_neg hlt]

theorem hnvPick_le_acc (a v : VersionInfo) :
    ∃ b2, hnvPick (some a) v = some b2 ∧ semverLe a b2 := by
  by_cases hlt : semverLt a v
  · refine ⟨v, ?_, semverLt_asymm a v hlt⟩
    simp only [hnvPick]
    rw [if_pos hlt]
  · refine ⟨a, ?_, semverLe_refl a⟩
    simp only [hnvPick]
    rw [if_neg hlt]

theorem hnv_fold_spec (l : List VersionInfo) (acc : Option VersionInfo) :
    (∀ m, l.foldl hnvPick acc = some m → m ∈ l ∨ acc = some m)
    ∧ (∀ b, acc = some b → ∃ m, l.foldl hnvPick acc = some m ∧ semverLe b m)
    ∧ (∀ v ∈ l, ∃ m, l.foldl hnvPick acc = some m ∧ semverLe v m) := by
  induction l generalizing acc with
  | nil =>
    exact ⟨fun m h => Or.inr h, fun b hb => ⟨b, hb, semverLe_refl b⟩, by simp⟩
  | cons v vs ih =>
    obtain ⟨ih1, ih2, ih3⟩ := ih (hnvPick acc v)
    refine ⟨?_, ?_, ?_⟩
    · intro m hm
      rw [List.foldl_cons] at hm
      rcases ih1 m hm with h | h
      · exact Or.inl (List.mem_cons_of_mem v h)
      · rcases hnvPick_mem acc v m h with h2 | h2
        · exact Or.inl (by rw [h2]; exact List.mem_cons_self v vs)
        · exact Or.inr h2
    · intro b hb
      obtain ⟨b2, hb2, hle⟩ := hnvPick_le_acc b v
      rw [← hb] at hb2
      obtain ⟨m, hm, hle2⟩ := ih2 b2 hb2
      rw [List.foldl_cons]
      exact ⟨m, hm, semverLe_trans b b2 m hle hle2⟩
    · intro w hw
      rw [List.foldl_cons]
      rcases List.mem_cons.mp hw with rfl | hw2
      · obtain ⟨b2, hb2, hle⟩ := hnvPick_le_v acc w
        obtain ⟨m, hm, hle2⟩ := ih2 b2 hb2
        exact ⟨m, hm, semverLe_trans w b2 m hle hle2⟩
      · exact ih3 w hw2

theorem highestNormalVersion_spec (k : RegCrate) :
    (∀ m, highestNormalVersion k = some m →
      m ∈ k.versions ∧ m.pre = false ∧ m.yanked = false
        ∧ ∀ w ∈ k.versions, w.pre = false → w.yanked = false → semverLe w m)
    ∧ (highestNormalVersion k = none ↔
        ∀ w ∈ k.versions, w.pre = true ∨ w.yanked = true) := by
  obtain ⟨h1, _, h3⟩ := hnv_fold_spec
    (k.versions.filter (fun v => !v.pre && !v.yanked)) none
  constructor
  · intro m hm
    have hm' : (k.versions.filter (fun v => !v.pre && !v.yanked)).foldl hnvPick none
        = some m := by
      rw [highestNormalVersion] at hm
      exact hm
    rcases h1 m hm' with h | h
    · rcases List.mem_filter.mp h with ⟨hmem, hcond⟩
      rw [Bool.and_eq_true, Bool.not_eq_true', Bool.not_eq_true'] at hcond
      refine ⟨hmem, hcond.1, hcond.2, ?_⟩
      intro w hw hwp hwy
      have hwf : w ∈ k.versions.filter (fun v => !v.pre && !v.yanked) :=
        List.mem_filter.mpr ⟨hw, by simp [hwp, hwy]⟩
      obtain ⟨m2, hm2, hle⟩ := h3 w hwf
      rw [hm'] at hm2
      rw [Option.some_inj.mp hm2]
      exact hle
    · cases h
  · constructor
    · intro hn w hw
      by_contra hcontra
      push_neg at hcontra
      have hwp : w.pre = false := by simpa using hcontra.1
      have hwy : w.yanked = false := by simpa using hcontra.2
      have hwf : w ∈ k.versions.filter (fun v => !v.pre && !v.yanked) :=
        List.mem_filter.mpr ⟨hw, by simp [hwp, hwy]⟩
      obtain ⟨m2, hm2, _⟩ := h3 w hwf
      rw [highestNormalVersion] at hn
      rw [hn] at hm2
      cases hm2
    · intro hall
      have hfe : k.versions.filter (fun v => !v.pre && !v.yanked) = [] := by
        rw [List.filter_eq_nil_iff]
        intro w hw
        rcases hall w hw with h | h <;> simp [h]
      rw [highestNormalVersion, hfe]
      rfl

/-- Claim C8: `latestVersion` returns the version string of the highest
fetched version that is neither yanked nor a pre-release, and fails with
the NoVersions error when no version qualifies. -/
theorem fetch_latest_normal (k : RegCrate) :
    (∀ s, fetchLatestVersion k = Except.ok s →
      ∃ m ∈ k.versions, s = m.vers ∧ m.pre = false ∧ m.yanked = false
        ∧ ∀ w ∈ k.versions, w.pre = false → w.yanked = false → semverLe w m)
    ∧ ((∀ w ∈ k.versions, w.pre = true ∨ w.yanked = true) →
        fetchLatestVersion k = Except.error RegError.noVersions) := by
  obtain ⟨hs, hn⟩ := highestNormalVersion_spec k
  constructor
  · intro s h
    rcases hh : highestNormalVersion k with _ | m
    · simp only [fetchLatestVersion, hh] at h
      exact Except.noConfusion h
    · simp only [fetchLatestVersion, hh] at h
      obtain ⟨hm1, hm2, hm3, hm4⟩ := hs m hh
      refine ⟨m, hm1, ?_, hm2, hm3, hm4⟩
      cases h
      rfl
  · intro hall
    simp only [fetchLatestVersion, hn.mpr hall]

/-- Witness for C8, at a registry entry mixing yanked, pre-release, and
normal versions: the highest normal version 1.0.0 is selected. -/
theorem fetch_latest_normal_witness :
    fetchLatestVersion regW = Except.ok (str ("1.0.0"))
    ∧ ∃ m ∈ regW.versions, str ("1.0.0") = m.vers ∧ m.pre = false
        ∧ m.yanked = false
        ∧ ∀ w ∈ regW.versions, w.pre = false → w.yanked = false → semverLe w m :=
  ⟨by decide, (fetch_latest_normal regW).1 (str ("1.0.0")) (by decide)⟩

/-- Claim C7: an explicitly requested version that matches no version of
the fetched entry makes `features` fail with VersionNotFound rather than
return an empty list; a matching version yields that version's feature
names; an absent version request falls back to the latest normal
version (or the NoVersions error). -/
theorem fetch_features_version (k : RegCrate) (vq : Str) :
    ((∀ v ∈ k.versions, v.vers ≠ vq) →
      fetchFeatures k (some vq) = Except.error (RegError.versionNotFound vq))
    ∧ (∀ vi, k.versions.find? (fun v => decide (v.vers = vq)) = some vi →
        fetchFeatures k (some vq) = Except.ok (vi.features.map Prod.fst))
    ∧ (∀ vi, highestNormalVersion k = some vi →
        fetchFeatures k none = Except.ok (vi.features.map Prod.fst))
    ∧ (highestNormalVersion k = none →
        fetchFeatures k none = Except.error RegError.noVersions) := by
  refine ⟨?_, ?_, ?_, ?_⟩
  · intro hnone
    have hf : k.versions.find? (fun v => decide (v.vers = vq)) = none := by
      rw [List.find?_eq_none]
      intro v hv
      simpa using hnone v hv
    simp only [fetchFeatures, hf]
  · intro vi hvi
    simp only [fetchFeatures, hvi]
  · intro vi hvi
    simp only [fetchFeatures, hvi]
  · intro hn
    simp only [fetchFeatures, hn]

/-- Witness for C7: version 9.9.9 does not exist in the entry and yields
VersionNotFound; 1.0.0 exists and yields its feature names; with no
version requested the latest normal version's features are returned. -/
theorem fetch_features_version_witness :
    (∀ v ∈ regW.versions, v.vers ≠ str ("9.9.9"))
    ∧ fetchFeatures regW (some (str ("9.9.9")))
        = Except.error (RegError.versionNotFound (str ("9.9.9")))
    ∧ regW.versions.find? (fun v => decide (v.vers = str ("1.0.0")))
        = some verNormal
    ∧ fetchFeatures regW (some (str ("1.0.0")))
        = Except.ok (verNormal.features.map Prod.fst)
    ∧ highestNormalVersion regW = some verNormal
    ∧ fetchFeatures regW none = Except.ok (verNormal.features.map Prod.fst) :=
  ⟨by decide,
    (fetch_features_version regW (str ("9.9.9"))).1 (by decide),
    by decide,
    (fetch_features_version regW (str ("1.0.0"))).2.1 verNormal (by decide),
    by decide,
    (fetch_features_version regW (str ("1.0.0"))).2.2.1 verNormal (by decide)⟩

/-! ## Rustdoc provider (C9) -/

/-- Claim C9: generating workspace documentation runs generation with
private items included and leaves the provider cache unchanged in every
outcome, while external-package documentation, on a cache miss that
succeeds, is generated with private items excluded and inserted into the
provider cache under the key name:versionRequirement before returning. -/
theorem provider_cache_effects (env : DocEnv) (cache : ProviderCache)
    (path name : Str) (version : Option Str) :
    (getWorkspaceDocs env cache path).2 = cache
    ∧ (∀ raw, env.genJson (manifestPath path) true = Except.ok raw →
        (getWorkspaceDocs env cache path).1 =
          (match Crate.fromCrate raw none with
            | some c => Except.ok c
            | none => Except.error DocError.parseFailed))
    ∧ (alLookup cache (cacheKey name version) = none →
        ∀ c, (getCrateDocs env cache name version).1 = Except.ok c →
          (getCrateDocs env cache name version).2
              = alInsert cache (cacheKey name version) c
            ∧ ∃ dir raw, env.vendor name (version.getD (str ("*"))) = Except.ok dir
                ∧ env.genJson (manifestPath dir) false = Except.ok raw
                ∧ Crate.fromCrate raw none = some c) := by
  refine ⟨?_, ?_, ?_⟩
  · rcases hg : generateRustdocJson env path true with e | raw
    · simp [getWorkspaceDocs, hg]
    · rcases hf : Crate.fromCrate raw none with _ | c <;>
        simp [getWorkspaceDocs, hg, hf]
  · intro raw hraw
    have hg : generateRustdocJson env path true = Except.ok raw := hraw
    rcases hf : Crate.fromCrate raw none with _ | c <;>
      simp [getWorkspaceDocs, hg, hf]
  · intro hmiss c hok
    rcases hv : env.vendor name (version.getD (str ("*"))) with e | dir
    · exfalso
      simp only [getCrateDocs, hmiss, hv] at hok
      exact Except.noConfusion hok
    · rcases hg : generateRustdocJson env dir false with e | raw
      · exfalso
        simp only [getCrateDocs, hmiss, hv, hg] at hok
        exact Except.noConfusion hok
      · rcases hf : Crate.fromCrate raw none with _ | cr
        · exfalso
          simp only [getCrateDocs, hmiss, hv, hg, hf] at hok
          exact Except.noConfusion hok
        · have hcr : cr = c := by
            simp only [getCrateDocs, hmiss, hv, hg, hf] at hok
            cases hok
            rfl
          subst hcr
          constructor
          · simp only [getCrateDocs, hmiss, hv, hg, hf]
          · exact ⟨dir, raw, rfl, hg, hf⟩

/-- Witness for C9, against a concrete oracle environment: the workspace
call leaves the empty cache empty and its result is determined by
generation at the workspace manifest with private items included; the
external-package call inserts the built graph under the name:* key and
went through vendoring and private-items-excluded generation. -/
theorem provider_cache_effects_witness :
    (getWorkspaceDocs envW [] (str ("ws"))).2 = []
    ∧ (getWorkspaceDocs envW [] (str ("ws"))).1 =
        (match Crate.fromCrate krateC4 none with
          | some c => Except.ok c
          | none => Except.error DocError.parseFailed)
    ∧ alLookup ([] : ProviderCache) (cacheKey (str ("serde")) none) = none
    ∧ ((getCrateDocs envW [] (str ("serde")) none).2
          = alInsert [] (cacheKey (str ("serde")) none) builtC4
        ∧ ∃ dir raw, envW.vendor (str ("serde")) ((none : Option Str).getD (str ("*")))
              = Except.ok dir
            ∧ envW.genJson (manifestPath dir) false = Except.ok raw
            ∧ Crate.fromCrate raw none = some builtC4) :=
  ⟨(provider_cache_effects envW [] (str ("ws")) (str ("serde")) none).1,
    (provider_cache_effects envW [] (str ("ws")) (str ("serde")) none).2.1
      krateC4 (by decide),
    by decide,
    (provider_cache_effects envW [] (str ("ws")) (str ("serde")) none).2.2
      (by decide) builtC4 (by decide)⟩
